import Mathlib

/-!
Verification of the `LLMSearchSystem` search engine (`search_util.py`).

This file gives a shallow embedding of the indexing / search core:
the `documents` and `inverted_index` SQLite tables, the in-memory
caches (`inverted_index_cache`, `document_cache`, `indexed_urls_cache`,
`queued_urls_cache`), the crawl queue, tokenization, document indexing
(`_index_document`), retrieval (`search`, `_get_document_content`,
`_generate_snippet`, `llm_search_interface`) and the frontier enqueue
logic of `_scrape_and_index_url`.

Modelling conventions:
* Python dicts become association lists that keep insertion order
  (assigning an existing key updates it in place, a new key is appended),
  matching CPython's ordered-dict semantics.
* Python sets become duplicate-free lists (`setAdd` only appends absent
  elements).
* SQLite rows become list entries; `AUTOINCREMENT` ids are modelled by an
  explicit `nextId` counter starting at 1, as SQLite row ids start at 1.
* `positions` are stored as `List Nat` directly; the Python code stores
  `json.dumps(positions)` and decodes on read, a faithful round trip for
  lists of integers.
* `time.time()` becomes an explicit `timestamp : Nat` argument.
* Characters are treated at ASCII fidelity: Python's `str.lower` becomes
  `Char.toLower` and the regex class `\w` becomes ASCII alphanumerics
  plus underscore.  Scores (Python floats accumulating integer position
  counts) are modelled as `Nat`, exact for these sums.
-/

namespace SearchUtil

/-- `CONFIG["MAX_SNIPPET_LENGTH"]`. -/
def MAX_SNIPPET_LENGTH : Nat := 300

/-- `CONFIG["MAX_RESULTS_PER_QUERY"]`. -/
def MAX_RESULTS_PER_QUERY : Nat := 5

/-- `CONFIG["CACHE_DOCUMENTS_LIMIT"]`. -/
def CACHE_DOCUMENTS_LIMIT : Nat := 10000

/-- A row of the `documents` table. -/
structure DocRow where
  id : Nat
  url : String
  title : String
  content : String
  lastScraped : Nat
deriving DecidableEq, Repr

/-- A row of the `inverted_index` table: `(term, doc_id, positions)`. -/
structure PostRow where
  term : String
  doc : Nat
  positions : List Nat
deriving DecidableEq, Repr

/-- The persistent SQLite state: both tables plus the autoincrement counter. -/
structure DbState where
  documents : List DocRow
  nextId : Nat
  invIndex : List PostRow
deriving DecidableEq, Repr

/-- Value type of `document_cache`: `{url, title, content}`. -/
structure DocData where
  url : String
  title : String
  content : String
deriving DecidableEq, Repr

/-- `inverted_index_cache[term]`: an insertion-ordered dict `doc_id -> positions`. -/
abbrev PostMap := List (Nat × List Nat)

/-- `inverted_index_cache`: an insertion-ordered dict `term -> PostMap`. -/
abbrev InvCache := List (String × PostMap)

/-- The whole mutable state of an `LLMSearchSystem` instance. -/
structure SearchState where
  db : DbState
  invCache : InvCache
  docCache : List (Nat × DocData)
  indexedUrls : List String
  queuedUrls : List String
  scrapeQueue : List String
deriving DecidableEq, Repr

/-- A search result as assembled by `search`: `{title, url, snippet}`. -/
structure SearchResult where
  title : String
  url : String
  snippet : String
deriving DecidableEq, Repr

/-- The JSON object produced by `llm_search_interface` (before serialization). -/
structure LLMSearchOutput where
  query : String
  results : List SearchResult
  message : String
deriving DecidableEq, Repr

/-- The state of a fresh system over an empty database. -/
def initialState : SearchState :=
  { db := { documents := [], nextId := 1, invIndex := [] }
    invCache := []
    docCache := []
    indexedUrls := []
    queuedUrls := []
    scrapeQueue := [] }

/-! ## Tokenization (`_tokenize`) -/

/-- One character of Python's regex class `\w` (ASCII fragment):
alphanumeric or underscore. -/
def isWordChar (c : Char) : Bool := c.isAlphanum || c == '_'

/-- Splits a character list into the maximal runs of `isWordChar`
characters, i.e. the matches of `\b\w+\b`; `acc` holds the current run
reversed. -/
def splitRunsAux : List Char → List Char → List (List Char)
  | [], acc => if acc.isEmpty then [] else [acc.reverse]
  | c :: rest, acc =>
    if isWordChar c then splitRunsAux rest (c :: acc)
    else if acc.isEmpty then splitRunsAux rest []
    else acc.reverse :: splitRunsAux rest []

/-- All matches of `re.findall(r'\b\w+\b', ·)`. -/
def splitRuns (l : List Char) : List (List Char) := splitRunsAux l []

/-- `LLMSearchSystem._tokenize`: lowercase, take the `\b\w+\b` matches,
keep only tokens of length `> 1`. -/
def tokenize (s : String) : List String :=
  ((splitRuns (s.toList.map Char.toLower)).map (fun l => String.mk l)).filter
    (fun t => 1 < t.length)

/-! ## Association-list (Python dict) primitives -/

/-- Python dict assignment `m[k] = v` for the `doc_id -> positions` maps:
overwrite in place if the key exists, else append. -/
def pmAssign (d : Nat) (ps : List Nat) (m : PostMap) : PostMap :=
  if (m.lookup d).isSome then m.map (fun q => if q.1 == d then (d, ps) else q)
  else m ++ [(d, ps)]

/-- Python dict assignment for `document_cache`. -/
def dcAssign (d : Nat) (v : DocData) (m : List (Nat × DocData)) : List (Nat × DocData) :=
  if (m.lookup d).isSome then m.map (fun q => if q.1 == d then (d, v) else q)
  else m ++ [(d, v)]

/-- Python `set.add`. -/
def setAdd (u : String) (l : List String) : List String :=
  if u ∈ l then l else l ++ [u]

/-! ## Building per-term position lists (`_index_document`, lines 435-438) -/

/-- One step of `term_positions[token].append(i)` on a `defaultdict(list)`:
append the position if the term is known, else append a fresh entry. -/
def addToken (m : List (String × List Nat)) (i : Nat) (t : String) :
    List (String × List Nat) :=
  match m.lookup t with
  | some ps => m.map (fun p => if p.1 == t then (t, ps ++ [i]) else p)
  | none => m ++ [(t, [i])]

/-- The `for i, token in enumerate(tokens)` loop, with `i` starting at the
given offset. -/
def tpAux : List (String × List Nat) → Nat → List String → List (String × List Nat)
  | m, _, [] => m
  | m, i, t :: rest => tpAux (addToken m i t) (i + 1) rest

/-- `term_positions` as built by `_index_document` from the token list. -/
def termPositions (tokens : List String) : List (String × List Nat) :=
  tpAux [] 0 tokens

/-- The positions (0-based token indices, offset by `i`) at which term `t`
occurs in a token list; the reference shape for `termPositions`. -/
def occFrom (t : String) : Nat → List String → List Nat
  | _, [] => []
  | i, s :: rest => if s == t then i :: occFrom t (i + 1) rest else occFrom t (i + 1) rest

/-! ## Inverted-index cache maintenance (`_index_document`, lines 415-448) -/

/-- Lines 419-426: drop `doc_id` from every cached term's map and delete
terms whose map becomes empty. -/
def purgeDoc (d : Nat) (c : InvCache) : InvCache :=
  c.filterMap (fun p =>
    if (p.2.lookup d).isSome then
      if (p.2.filter (fun q => q.1 != d)).isEmpty then none
      else some (p.1, p.2.filter (fun q => q.1 != d))
    else some p)

/-- Lines 446-448: ensure the term has a cache entry, then assign
`cache[term][doc_id] = positions`. -/
def cacheAssign (t : String) (d : Nat) (ps : List Nat) (c : InvCache) : InvCache :=
  match c.lookup t with
  | some m => c.map (fun p => if p.1 == t then (t, pmAssign d ps m) else p)
  | none => c ++ [(t, [(d, ps)])]

/-- The cache effect of the `for term, positions in term_positions.items()` loop. -/
def assignAll (d : Nat) (tp : List (String × List Nat)) (c : InvCache) : InvCache :=
  tp.foldl (fun acc p => cacheAssign p.1 d p.2 acc) c

/-! ## Document cache insertion with eviction
(`_index_document` lines 456-471 and `_get_document_content` lines 616-626,
which duplicate the same logic) -/

/-- Assign `document_cache[d] = v`; if the cache then exceeds `limit`,
find the first key different from `d` (dict iteration order) and, when that
key is truthy (non-`None` and nonzero), delete it. -/
def cacheInsertWithEvict (limit : Nat) (d : Nat) (v : DocData)
    (cache : List (Nat × DocData)) : List (Nat × DocData) :=
  let c1 := dcAssign d v cache
  if limit < c1.length then
    match c1.find? (fun p => p.1 != d) with
    | some p => if p.1 != 0 then c1.filter (fun q => q.1 != p.1) else c1
    | none => c1
  else c1

/-! ## `_index_document` -/

/-- The part of `_index_document` after the upsert and before the return:
tokenize, build `term_positions`, batch-insert the postings, refresh the
inverted-index cache, the document cache and `indexed_urls_cache`. -/
def indexCommon (st1 : SearchState) (d : Nat) (url title content : String) :
    SearchState :=
  let tp := termPositions (tokenize content)
  { st1 with
    db := { st1.db with
      invIndex := st1.db.invIndex ++ tp.map (fun p => ⟨p.1, d, p.2⟩) }
    invCache := assignAll d tp st1.invCache
    docCache := cacheInsertWithEvict CACHE_DOCUMENTS_LIMIT d ⟨url, title, content⟩ st1.docCache
    indexedUrls := setAdd url st1.indexedUrls }

/-- `LLMSearchSystem._index_document` (success path).  If the url is
already present: update the row, delete that document's postings, drop it
from the document cache and `indexed_urls_cache`, purge it from the
inverted-index cache; otherwise insert a fresh row.  Then re-index the
content via `indexCommon`.  Returns the document id with the new state. -/
def indexDocument (st : SearchState) (url title content : String)
    (timestamp : Nat) : Nat × SearchState :=
  match st.db.documents.find? (fun r => r.url == url) with
  | some row =>
    let d := row.id
    let st1 : SearchState := { st with
      db := { st.db with
        documents := st.db.documents.map (fun r =>
          if r.id == d then { r with title := title, content := content,
                                     lastScraped := timestamp } else r)
        invIndex := st.db.invIndex.filter (fun r => r.doc != d) }
      docCache := st.docCache.filter (fun p => p.1 != d)
      indexedUrls := st.indexedUrls.filter (fun u => u != url)
      invCache := purgeDoc d st.invCache }
    (d, indexCommon st1 d url title content)
  | none =>
    let d := st.db.nextId
    let st1 : SearchState := { st with
      db := { st.db with
        documents := st.db.documents ++ [⟨d, url, title, content, timestamp⟩]
        nextId := d + 1 } }
    (d, indexCommon st1 d url title content)

/-! ## `_get_document_content` -/

/-- `LLMSearchSystem._get_document_content`: cache hit returns directly;
a miss falls back to the `documents` table and populates the cache with
the same bounded-eviction logic as `_index_document`. -/
def getDocumentContent (st : SearchState) (d : Nat) : Option DocData × SearchState :=
  match st.docCache.lookup d with
  | some v => (some v, st)
  | none =>
    match st.db.documents.find? (fun r => r.id == d) with
    | some r =>
      let v : DocData := ⟨r.url, r.title, r.content⟩
      (some v, { st with docCache := cacheInsertWithEvict CACHE_DOCUMENTS_LIMIT d v st.docCache })
    | none => (none, st)

/-! ## `_generate_snippet` -/

/-- Python's default whitespace class (ASCII fragment), as matched by
`\s` and stripped by `str.strip()`. -/
def isPyWs (c : Char) : Bool :=
  c == ' ' || c == '\t' || c == '\n' || c == '\x0b' || c == '\x0c' || c == '\r'

/-- Sentence-ending punctuation of `_generate_snippet`. -/
def isSentPunct (c : Char) : Bool := c == '.' || c == '!' || c == '?'

/-- `re.split(r'(?<=[.!?])\s+', ·)`: cut at every maximal whitespace run
immediately preceded by sentence punctuation, dropping the whitespace.
`acc` is the current sentence reversed, `prevPunct` records whether the
previous character was in `[.!?]`, `inSep` whether we are inside a
separator run. -/
def splitSentAux : List Char → List Char → Bool → Bool → List (List Char)
  | [], acc, _, _ => [acc.reverse]
  | c :: rest, acc, prevPunct, inSep =>
    if inSep && isPyWs c then splitSentAux rest acc prevPunct true
    else if !inSep && prevPunct && isPyWs c then
      acc.reverse :: splitSentAux rest [] false true
    else splitSentAux rest (c :: acc) (isSentPunct c) false

/-- The sentence list of `_generate_snippet`. -/
def splitSentences (content : List Char) : List (List Char) :=
  splitSentAux content [] false false

/-- Python's substring test `needle in hay` on character lists. -/
def containsSub (needle : List Char) : List Char → Bool
  | [] => needle.isEmpty
  | c :: rest => needle.isPrefixOf (c :: rest) || containsSub needle rest

/-- Index of the last character satisfying `p` (Python `str.rfind` over a
set of characters, `-1` becoming `none`); `i` is the index of the head,
`best` the best hit so far. -/
def rfindIdxAux (p : Char → Bool) : List Char → Nat → Option Nat → Option Nat
  | [], _, best => best
  | c :: rest, i, best => rfindIdxAux p rest (i + 1) (if p c then some i else best)

/-- Last index of a character satisfying `p`, if any. -/
def rfindIdx (p : Char → Bool) (l : List Char) : Option Nat := rfindIdxAux p l 0 none

/-- `snippet.rsplit(' ', 1)[0]`: everything before the last space, or the
whole string when it has no space. -/
def rsplitSpaceHead (l : List Char) : List Char :=
  match rfindIdx (fun c => c == ' ') l with
  | some j => l.take j
  | none => l

/-- `str.strip()`. -/
def pyStrip (l : List Char) : List Char :=
  ((l.dropWhile isPyWs).reverse.dropWhile isPyWs).reverse

/-- `LLMSearchSystem._generate_snippet` on character lists.  Join the
sentences containing some query token (case-insensitively); if that is
empty or shorter than 50 characters fall back to a leading slice of the
content (with an ellipsis when truncated); if the result exceeds
`MAX_SNIPPET_LENGTH`, cut to the budget and retreat to the last sentence
punctuation, else drop the last partial word and append an ellipsis;
finally strip whitespace. -/
def generateSnippetL (content : List Char) (queryTokens : List (List Char)) :
    List Char :=
  let sentences := splitSentences content
  let relevant := sentences.filter (fun s =>
    queryTokens.any (fun t => containsSub t (s.map Char.toLower)))
  let snippet0 := List.intercalate [' '] relevant
  let snippet1 :=
    if snippet0.length < 50 then
      content.take MAX_SNIPPET_LENGTH ++
        (if MAX_SNIPPET_LENGTH < content.length then "...".toList else [])
    else snippet0
  let snippet2 :=
    if MAX_SNIPPET_LENGTH < snippet1.length then
      let t := snippet1.take MAX_SNIPPET_LENGTH
      match rfindIdx isSentPunct t with
      | some j => t.take (j + 1)
      | none => rsplitSpaceHead t ++ "...".toList
    else snippet1
  pyStrip snippet2

/-- `_generate_snippet` on strings. -/
def generateSnippet (content : String) (queryTokens : List String) : String :=
  String.mk (generateSnippetL content.toList (queryTokens.map String.toList))

/-! ## `search` -/

/-- `doc_scores[doc_id] += k` on a `defaultdict(float)`. -/
def bumpScore (sc : List (Nat × Nat)) (d : Nat) (k : Nat) : List (Nat × Nat) :=
  match sc.lookup d with
  | some s => sc.map (fun p => if p.1 == d then (d, s + k) else p)
  | none => sc ++ [(d, k)]

/-- `SELECT doc_id, positions FROM inverted_index WHERE term = ?`. -/
def rowsFor (t : String) (inv : List PostRow) : List PostRow :=
  inv.filter (fun r => r.term == t)

/-- The body of `search`'s per-token loop: on a cache hit accumulate the
cached position-list lengths; on a miss read the table, accumulate row by
row, and install the rows as the term's new cache entry. -/
def searchToken (st : SearchState) (sc : List (Nat × Nat)) (t : String) :
    List (Nat × Nat) × SearchState :=
  match st.invCache.lookup t with
  | some m => (m.foldl (fun acc q => bumpScore acc q.1 q.2.length) sc, st)
  | none =>
    let rows := rowsFor t st.db.invIndex
    let sc2 := rows.foldl (fun acc r => bumpScore acc r.doc r.positions.length) sc
    let m := rows.foldl (fun acc r => pmAssign r.doc r.positions acc) ([] : PostMap)
    (sc2, { st with invCache := st.invCache ++ [(t, m)] })

/-- The whole `for token in query_tokens` scoring loop. -/
def searchFold (st : SearchState) (tokens : List String) :
    List (Nat × Nat) × SearchState :=
  tokens.foldl (fun acc t => searchToken acc.2 acc.1 t) (([] : List (Nat × Nat)), st)

/-- `sorted(doc_scores.items(), key=lambda item: item[1], reverse=True)`:
Python's sort is a stable mergesort, descending by score here. -/
def searchScored (st : SearchState) (query : String) :
    List (Nat × Nat) × SearchState :=
  let r := searchFold st (tokenize query)
  (r.1.mergeSort (fun a b => decide (b.2 ≤ a.2)), r.2)

/-- `LLMSearchSystem.search`: empty-token queries return `[]`; otherwise
score, sort, take the top `MAX_RESULTS_PER_QUERY`, and build a
`{title, url, snippet}` record for each document whose content can be
retrieved. -/
def search (st : SearchState) (query : String) : List SearchResult × SearchState :=
  let qtokens := tokenize query
  if qtokens.isEmpty then ([], st)
  else
    let r := searchScored st query
    (r.1.take MAX_RESULTS_PER_QUERY).foldl
      (fun acc p =>
        match getDocumentContent acc.2 p.1 with
        | (some dd, st2) =>
          (acc.1 ++ [⟨dd.title, dd.url, generateSnippet dd.content qtokens⟩], st2)
        | (none, st2) => (acc.1, st2))
      (([] : List SearchResult), r.2)

/-- `LLMSearchSystem.llm_search_interface`: run the search and wrap it in
the output object; an empty result list selects the no-results message. -/
def llmSearchInterface (st : SearchState) (query : String) :
    LLMSearchOutput × SearchState :=
  let r := search st query
  ({ query := query
     results := r.1
     message := if r.1.isEmpty then "No results found for your query."
                else "Search completed successfully." }, r.2)

/-! ## Specification-level views of the index used in theorem statements -/

/-- The postings a query for `t` consults: the cached map when the term is
cached, else the table rows (this is the cache-first lookup `search`
performs). -/
def postingsView (st : SearchState) (t : String) : PostMap :=
  match st.invCache.lookup t with
  | some m => m
  | none => (rowsFor t st.db.invIndex).map (fun r => (r.doc, r.positions))

/-- The specification's score of document `d` for a token list: the sum
over the tokens of the length of that token's position list for `d`. -/
def scoreOf (st : SearchState) (tokens : List String) (d : Nat) : Nat :=
  (tokens.map (fun t => (((postingsView st t).lookup d).getD []).length)).sum

/-- The total score weight a postings list contributes to document `d`:
the summed lengths of the position lists recorded for `d` (used to analyse
the accumulation loop; with duplicate-free keys it equals the length of
the looked-up position list). -/
def weightOf (m : PostMap) (d : Nat) : Nat :=
  ((m.filter (fun q => q.1 == d)).map (fun q => q.2.length)).sum

/-- The persisted positions of `(term, doc)` as read back from the
`inverted_index` table. -/
def dbPositions (st : SearchState) (t : String) (d : Nat) : Option (List Nat) :=
  (st.db.invIndex.find? (fun r => r.term == t && r.doc == d)).map (fun r => r.positions)

/-- The cached positions of `(term, doc)` in `inverted_index_cache`. -/
def cachePositions (st : SearchState) (t : String) (d : Nat) : Option (List Nat) :=
  (st.invCache.lookup t).bind (fun m => m.lookup d)

/-! ## Frontier enqueueing (`_scrape_and_index_url`, lines 513-523) -/

/-- Body of the pagination loop: a pagination link distinct from the page
just indexed and not currently queued is pushed at the *front* of the
queue (note: the `indexed_urls_cache` is not consulted here). -/
def enqueuePagination (st : SearchState) (cur pageUrl : String) : SearchState :=
  if pageUrl ≠ cur ∧ pageUrl ∉ st.queuedUrls then
    { st with scrapeQueue := pageUrl :: st.scrapeQueue
              queuedUrls := setAdd pageUrl st.queuedUrls }
  else st

/-- Body of the article loop: an article link distinct from the page just
indexed, not yet indexed and not currently queued is appended at the back. -/
def enqueueArticle (st : SearchState) (cur articleUrl : String) : SearchState :=
  if articleUrl ≠ cur ∧ articleUrl ∉ st.indexedUrls ∧ articleUrl ∉ st.queuedUrls then
    { st with scrapeQueue := st.scrapeQueue ++ [articleUrl]
              queuedUrls := setAdd articleUrl st.queuedUrls }
  else st

/-! ## Failure model of `_index_document`'s store writes

`_index_document` talks to SQLite through a connection whose uncommitted
writes live in `pending`; `commit` publishes them to `committed` and
`rollback` discards them.  `indexDocumentDb` mirrors the exact write/commit
sequence of the Python code: upsert the document row and delete the old
postings, **commit** (line 433), then tokenize and batch-insert the new
postings and commit again (line 454).  `postingsWriteFails` models the
batch insert raising `sqlite3.Error`, upon which the handler rolls back
and returns `None` (lines 475-479). -/

/-- A SQLite connection: last committed state and pending uncommitted state. -/
structure Conn where
  committed : DbState
  pending : DbState
deriving DecidableEq, Repr

/-- `conn.commit()`. -/
def commitConn (c : Conn) : Conn := ⟨c.pending, c.pending⟩

/-- `conn.rollback()`. -/
def rollbackConn (c : Conn) : Conn := ⟨c.committed, c.committed⟩

/-- The store writes of `_index_document` with a fault injection point at
the postings batch insert. -/
def indexDocumentDb (conn : Conn) (url title content : String) (timestamp : Nat)
    (postingsWriteFails : Bool) : Option Nat × Conn :=
  let step1 : Nat × DbState :=
    match conn.pending.documents.find? (fun r => r.url == url) with
    | some row =>
      (row.id, { conn.pending with
        documents := conn.pending.documents.map (fun r =>
          if r.id == row.id then { r with title := title, content := content,
                                          lastScraped := timestamp } else r)
        invIndex := conn.pending.invIndex.filter (fun r => r.doc != row.id) })
    | none =>
      (conn.pending.nextId, { conn.pending with
        documents := conn.pending.documents ++
          [⟨conn.pending.nextId, url, title, content, timestamp⟩]
        nextId := conn.pending.nextId + 1 })
  let c1 := commitConn { conn with pending := step1.2 }
  if postingsWriteFails then (none, rollbackConn c1)
  else
    let tp := termPositions (tokenize content)
    let c2 : Conn := { c1 with pending := { c1.pending with
      invIndex := c1.pending.invIndex ++ tp.map (fun p => ⟨p.1, step1.1, p.2⟩) } }
    (some step1.1, commitConn c2)

/-! ## Concrete states used as counterexample / witness inputs -/

/-- A frontier state with one queued URL and one (distinct) indexed URL. -/
def c3State : SearchState :=
  { initialState with
      queuedUrls := ["https://q"]
      indexedUrls := ["https://i"] }

/-- A frontier state whose only history is one already-indexed URL. -/
def c3CexState : SearchState :=
  { initialState with indexedUrls := ["https://i"] }

/-- A two-document state: document 1 contains `"cats"` twice, document 2
once (built by indexing both into the fresh store). -/
def c6State : SearchState :=
  (indexDocument (indexDocument initialState "https://x/one" "One"
    "cats chase cats" 1).2 "https://x/two" "Two" "cats sleep" 2).2

/-- The concrete store of the C5 failing input: one document
(`id 1`, content `"old cat"`) with its two postings committed. -/
def c5Db : DbState :=
  { documents := [{ id := 1, url := "https://x/a", title := "T",
                    content := "old cat", lastScraped := 0 }]
    nextId := 2
    invIndex := [{ term := "old", doc := 1, positions := [0] },
                 { term := "cat", doc := 1, positions := [1] }] }

/-! # Theorems -/

/-! ## Association-list (ordered-dict) lemmas -/

/-- `lookup` over a cons cell, stated with propositional equality. -/
theorem alookup_cons {α β : Type} [DecidableEq α] (a k : α) (v : β) (l : List (α × β)) :
    ((k, v) :: l).lookup a = if a = k then some v else l.lookup a := by
  by_cases h : a = k
  · subst h
    simp [List.lookup]
  · simp [List.lookup, beq_eq_false_iff_ne.mpr h, h]

/-- `lookup` over an append searches the left list first. -/
theorem alookup_append {α β : Type} [DecidableEq α] (a : α) (l1 l2 : List (α × β)) :
    (l1 ++ l2).lookup a = (l1.lookup a).or (l2.lookup a) := by
  induction l1 with
  | nil => simp [List.lookup]
  | cons p rest ih =>
    obtain ⟨k, v⟩ := p
    rw [List.cons_append, alookup_cons, alookup_cons]
    by_cases h : a = k
    · simp [h]
    · simp [h, ih]

/-- `lookup` fails exactly when the key is absent. -/
theorem alookup_eq_none {α β : Type} [DecidableEq α] (a : α) (l : List (α × β)) :
    l.lookup a = none ↔ a ∉ l.map Prod.fst := by
  induction l with
  | nil => simp [List.lookup]
  | cons p rest ih =>
    obtain ⟨k, v⟩ := p
    rw [alookup_cons]
    by_cases h : a = k
    · subst h
      simp
    · simp [h, ih]

/-- A successful `lookup` returns an actual entry of the list. -/
theorem mem_of_alookup {α β : Type} [DecidableEq α] {a : α} {b : β}
    {l : List (α × β)} (h : l.lookup a = some b) : (a, b) ∈ l := by
  induction l with
  | nil => simp [List.lookup] at h
  | cons p rest ih =>
    obtain ⟨k, v⟩ := p
    rw [alookup_cons] at h
    by_cases hk : a = k
    · subst hk
      rw [if_pos rfl] at h
      cases h
      exact List.mem_cons_self _ _
    · rw [if_neg hk] at h
      exact List.mem_cons_of_mem _ (ih h)

/-- `lookup` after a Python-dict in-place assignment
`m.map (fun p => if p.1 == k then (k, v) else p)`. -/
theorem alookup_mapUpdate {α β : Type} [DecidableEq α] (k : α) (v : β)
    (m : List (α × β)) (u : α) :
    (m.map (fun p => if p.1 == k then (k, v) else p)).lookup u =
      if u = k then (m.lookup k).map (fun _ => v) else m.lookup u := by
  have hfun : (fun p : α × β => if p.1 == k then (k, v) else p)
      = (fun p => if p.1 = k then (k, v) else p) := by
    funext p
    simp
  rw [hfun]
  induction m with
  | nil => simp [List.lookup]
  | cons p rest ih =>
    obtain ⟨a, b⟩ := p
    rw [List.map_cons]
    by_cases hak : a = k
    · subst hak
      rw [show (if ((a, b).1 = a) then (a, v) else (a, b)) = (a, v) from if_pos rfl]
      by_cases hua : u = a
      · simp [alookup_cons, hua]
      · simp [alookup_cons, hua, ih]
    · rw [show (if ((a, b).1 = k) then (k, v) else (a, b)) = (a, b) from if_neg hak]
      by_cases hua : u = a
      · subst hua
        simp [alookup_cons, hak]
      · by_cases huk : u = k
        · subst huk
          simp [alookup_cons, hua, ih, Ne.symm hak]
        · simp [alookup_cons, hua, huk, ih]

/-- The in-place assignment does not change the key sequence. -/
theorem keys_mapUpdate {α β : Type} [DecidableEq α] (k : α) (v : β)
    (m : List (α × β)) :
    (m.map (fun p => if p.1 == k then (k, v) else p)).map Prod.fst = m.map Prod.fst := by
  have hfun : (fun p : α × β => if p.1 == k then (k, v) else p)
      = (fun p => if p.1 = k then (k, v) else p) := by
    funext p
    simp
  rw [hfun]
  induction m with
  | nil => simp
  | cons p rest ih =>
    obtain ⟨a, b⟩ := p
    rw [List.map_cons]
    by_cases hak : a = k
    · subst hak
      rw [show (if ((a, b).1 = a) then (a, v) else (a, b)) = (a, v) from if_pos rfl]
      simp [ih]
    · rw [show (if ((a, b).1 = k) then (k, v) else (a, b)) = (a, b) from if_neg hak]
      simp [ih]

/-! ## Characterization of `termPositions` -/

/-- `lookup` after one `term_positions[token].append(i)` step. -/
theorem alookup_addToken (m : List (String × List Nat)) (i : Nat) (t u : String) :
    (addToken m i t).lookup u =
      if u = t then some (((m.lookup t).getD []) ++ [i]) else m.lookup u := by
  unfold addToken
  cases hm : m.lookup t with
  | some ps =>
    simp only []
    rw [alookup_mapUpdate]
    by_cases h : u = t
    · subst h
      simp [hm]
    · simp [h]
  | none =>
    simp only []
    rw [alookup_append, alookup_cons]
    by_cases h : u = t
    · subst h
      simp [hm]
    · simp [h, List.lookup]

/-- Membership in `occFrom`: exactly the (offset) indices where the token
list carries the term. -/
theorem mem_occFrom (t : String) (ts : List String) : ∀ (i j : Nat),
    j ∈ occFrom t i ts ↔ ∃ k, ts[k]? = some t ∧ j = i + k := by
  induction ts with
  | nil => simp [occFrom]
  | cons s rest ih =>
    intro i j
    simp only [occFrom]
    by_cases h : s = t
    · subst h
      simp only [beq_self_eq_true, if_true]
      constructor
      · intro hj
        rcases List.mem_cons.mp hj with rfl | hj
        · exact ⟨0, by simp, by omega⟩
        · obtain ⟨k, hk, rfl⟩ := (ih (i + 1) j).mp hj
          exact ⟨k + 1, by simpa using hk, by omega⟩
      · rintro ⟨k, hk, rfl⟩
        cases k with
        | zero => simp
        | succ k =>
          refine List.mem_cons_of_mem _ ((ih (i + 1) (i + (k + 1))).mpr ?_)
          exact ⟨k, by simpa using hk, by omega⟩
    · rw [if_neg (by simp [beq_eq_false_iff_ne.mpr h])]
      constructor
      · intro hj
        obtain ⟨k, hk, rfl⟩ := (ih (i + 1) j).mp hj
        exact ⟨k + 1, by simpa using hk, by omega⟩
      · rintro ⟨k, hk, rfl⟩
        cases k with
        | zero =>
          simp only [List.getElem?_cons_zero, Option.some_inj] at hk
          exact absurd hk h
        | succ k =>
          refine (ih (i + 1) (i + (k + 1))).mpr ⟨k, by simpa using hk, by omega⟩

/-- Every position produced by `occFrom t i` is at least `i`. -/
theorem occFrom_ge (t : String) (ts : List String) (i j : Nat)
    (h : j ∈ occFrom t i ts) : i ≤ j := by
  obtain ⟨k, _, rfl⟩ := (mem_occFrom t ts i j).mp h
  omega

/-- The positions of a term are strictly increasing. -/
theorem occFrom_pairwise (t : String) (ts : List String) : ∀ (i : Nat),
    (occFrom t i ts).Pairwise (· < ·) := by
  induction ts with
  | nil => intro i; simp [occFrom]
  | cons s rest ih =>
    intro i
    simp only [occFrom]
    split
    · exact List.pairwise_cons.mpr
        ⟨fun j hj => Nat.lt_of_lt_of_le (Nat.lt_succ_self i) (occFrom_ge t rest (i + 1) j hj),
         ih (i + 1)⟩
    · exact ih (i + 1)

/-- A term has no positions iff it does not occur. -/
theorem occFrom_eq_nil (t : String) (ts : List String) : ∀ (i : Nat),
    occFrom t i ts = [] ↔ t ∉ ts := by
  induction ts with
  | nil => simp [occFrom]
  | cons s rest ih =>
    intro i
    simp only [occFrom]
    by_cases h : s = t
    · subst h
      simp
    · rw [if_neg (by simp [beq_eq_false_iff_ne.mpr h])]
      simp [ih (i + 1), Ne.symm h]

/-- `lookup` over the enumeration fold equals the accumulated positions. -/
theorem alookup_tpAux (u : String) : ∀ (ts : List String)
    (m : List (String × List Nat)) (i : Nat),
    (tpAux m i ts).lookup u =
      match m.lookup u with
      | some ps => some (ps ++ occFrom u i ts)
      | none => if occFrom u i ts = [] then none else some (occFrom u i ts) := by
  intro ts
  induction ts with
  | nil =>
    intro m i
    simp only [tpAux, occFrom]
    cases m.lookup u <;> simp
  | cons s rest ih =>
    intro m i
    simp only [tpAux]
    rw [ih]
    rw [alookup_addToken]
    by_cases h : u = s
    · subst h
      rw [if_pos rfl]
      simp only [occFrom, beq_self_eq_true, if_true]
      cases hm : m.lookup u with
      | some ps => simp
      | none => simp
    · rw [if_neg h]
      have hocc : occFrom u i (s :: rest) = occFrom u (i + 1) rest := by
        simp only [occFrom]
        rw [if_neg (by simp [beq_eq_false_iff_ne.mpr (fun hh => h hh.symm)])]
      rw [hocc]

/-- The `term_positions` dict maps each term to its full occurrence list. -/
theorem termPositions_alookup (u : String) (tokens : List String) :
    (termPositions tokens).lookup u =
      if occFrom u 0 tokens = [] then none else some (occFrom u 0 tokens) := by
  unfold termPositions
  rw [alookup_tpAux]
  simp [List.lookup]

/-- The key sequence after one `addToken` step. -/
theorem keys_addToken (m : List (String × List Nat)) (i : Nat) (t : String) :
    (addToken m i t).map Prod.fst =
      if (m.lookup t).isSome then m.map Prod.fst else m.map Prod.fst ++ [t] := by
  unfold addToken
  cases hm : m.lookup t with
  | some ps =>
    simp only [Option.isSome_some, if_true]
    exact keys_mapUpdate t (ps ++ [i]) m
  | none => simp

/-- `addToken` preserves key distinctness. -/
theorem nodup_keys_addToken (m : List (String × List Nat)) (i : Nat) (t : String)
    (h : (m.map Prod.fst).Nodup) : ((addToken m i t).map Prod.fst).Nodup := by
  rw [keys_addToken]
  cases hm : m.lookup t with
  | some ps => simpa using h
  | none =>
    simp only [Option.isSome_none, Bool.false_eq_true, if_false]
    rw [List.nodup_append]
    exact ⟨h, List.nodup_singleton t,
      by simpa using (alookup_eq_none t m).mp hm⟩

/-- The enumeration fold preserves key distinctness. -/
theorem nodup_keys_tpAux : ∀ (ts : List String) (m : List (String × List Nat)) (i : Nat),
    (m.map Prod.fst).Nodup → ((tpAux m i ts).map Prod.fst).Nodup := by
  intro ts
  induction ts with
  | nil => intro m i h; simpa [tpAux] using h
  | cons s rest ih =>
    intro m i h
    exact ih (addToken m i s) (i + 1) (nodup_keys_addToken m i s h)

/-- `term_positions` has pairwise-distinct terms. -/
theorem nodup_keys_termPositions (tokens : List String) :
    ((termPositions tokens).map Prod.fst).Nodup :=
  nodup_keys_tpAux tokens [] 0 (by simp)

/-! ## Store and cache effect of `_index_document` -/

/-- `find?` of a `(term, doc)` pair over the freshly inserted posting rows
equals the `term_positions` lookup. -/
theorem find?_toRow (tp : List (String × List Nat)) (d : Nat) (t : String) :
    (tp.map (fun p => PostRow.mk p.1 d p.2)).find? (fun r => r.term == t && r.doc == d) =
      (tp.lookup t).map (fun ps => PostRow.mk t d ps) := by
  induction tp with
  | nil => simp [List.lookup]
  | cons p rest ih =>
    obtain ⟨u, ps⟩ := p
    rw [List.map_cons, alookup_cons]
    by_cases h : t = u
    · subst h
      rw [List.find?_cons_of_pos _ (by simp)]
      simp
    · rw [List.find?_cons_of_neg _ (by simp [beq_eq_false_iff_ne.mpr (Ne.symm h)])]
      rw [if_neg h]
      exact ih

/-- The freshly inserted posting rows all carry doc id `d`. -/
theorem filter_toRow_nil (tp : List (String × List Nat)) (d : Nat) :
    (tp.map (fun p => PostRow.mk p.1 d p.2)).filter (fun r => r.doc != d) = [] := by
  rw [List.filter_eq_nil_iff]
  intro r hr
  rcases List.mem_map.mp hr with ⟨p, _, rfl⟩
  simp

/-- After `indexCommon`, the persisted positions of `(t, d)` are exactly
the `term_positions` entry of `t`, provided no pre-existing row carried
doc id `d`. -/
theorem dbPositions_indexCommon (st1 : SearchState) (d : Nat)
    (url title content : String)
    (hd : ∀ r ∈ st1.db.invIndex, r.doc ≠ d) (t : String) :
    dbPositions (indexCommon st1 d url title content) t d =
      (termPositions (tokenize content)).lookup t := by
  simp only [dbPositions, indexCommon]
  rw [List.find?_append]
  have hbase : st1.db.invIndex.find? (fun r => r.term == t && r.doc == d) = none := by
    rw [List.find?_eq_none]
    intro r hr
    simp [hd r hr]
  rw [hbase, Option.none_or, find?_toRow]
  cases (termPositions (tokenize content)).lookup t <;> simp

/-- After the purge loop, no cached map still contains doc id `d`. -/
theorem purgeDoc_no_doc (d : Nat) (c : InvCache) :
    ∀ p ∈ purgeDoc d c, p.2.lookup d = none := by
  intro p hp
  unfold purgeDoc at hp
  rcases List.mem_filterMap.mp hp with ⟨q, _, hout⟩
  by_cases hs : (q.2.lookup d).isSome
  · rw [if_pos hs] at hout
    split at hout
    · exact absurd hout (by simp)
    · cases hout
      rw [alookup_eq_none]
      intro hmem
      rcases List.mem_map.mp hmem with ⟨x, hx, hxd⟩
      rcases List.mem_filter.mp hx with ⟨_, hne⟩
      rw [hxd] at hne
      simp at hne
  · rw [if_neg hs] at hout
    cases hout
    simpa using Option.not_isSome_iff_eq_none.mp hs

/-- Assigning `positions` for `(term, doc)` makes the doc's cached entry
that list. -/
theorem pmAssign_lookup_self (d : Nat) (qs : List Nat) (m : PostMap) :
    (pmAssign d qs m).lookup d = some qs := by
  unfold pmAssign
  by_cases hs : (m.lookup d).isSome
  · rw [if_pos hs, alookup_mapUpdate, if_pos rfl]
    rcases Option.isSome_iff_exists.mp hs with ⟨ps, hps⟩
    rw [hps]
    rfl
  · rw [if_neg hs, alookup_append, Option.not_isSome_iff_eq_none.mp hs]
    simp [alookup_cons, List.lookup]

/-- `cacheAssign` installs the positions at its own term. -/
theorem cacheAssign_self (u : String) (d : Nat) (qs : List Nat) (c : InvCache) :
    ((cacheAssign u d qs c).lookup u).bind (fun m => m.lookup d) = some qs := by
  unfold cacheAssign
  cases hc : c.lookup u with
  | some m =>
    simp only []
    rw [alookup_mapUpdate, if_pos rfl, hc]
    simpa using pmAssign_lookup_self d qs m
  | none =>
    simp only []
    rw [alookup_append, hc, alookup_cons]
    simp [alookup_cons, List.lookup]

/-- `cacheAssign` leaves every other term's entry unchanged. -/
theorem cacheAssign_other (u t : String) (h : t ≠ u) (d : Nat) (qs : List Nat)
    (c : InvCache) : (cacheAssign u d qs c).lookup t = c.lookup t := by
  unfold cacheAssign
  cases hc : c.lookup u with
  | some m =>
    simp only []
    rw [alookup_mapUpdate, if_neg h]
  | none =>
    simp only []
    rw [alookup_append, alookup_cons, if_neg h]
    cases c.lookup t <;> simp [List.lookup]

/-- The per-term cache write-back loop: for terms of `term_positions` the
cached positions of `d` become the computed list, for all other terms the
cache is untouched. -/
theorem assignAll_lookup2 (d : Nat) : ∀ (tp : List (String × List Nat))
    (c : InvCache) (t : String), (tp.map Prod.fst).Nodup →
    ((assignAll d tp c).lookup t).bind (fun m => m.lookup d) =
      match tp.lookup t with
      | some ps => some ps
      | none => (c.lookup t).bind (fun m => m.lookup d) := by
  intro tp
  induction tp with
  | nil =>
    intro c t _
    simp [assignAll, List.lookup]
  | cons p rest ih =>
    intro c t hnd
    obtain ⟨u, qs⟩ := p
    have hnd2 : (u :: rest.map Prod.fst).Nodup := by simpa using hnd
    have hu : u ∉ rest.map Prod.fst := (List.nodup_cons.mp hnd2).1
    have hrestnd : (rest.map Prod.fst).Nodup := (List.nodup_cons.mp hnd2).2
    have hstep : assignAll d ((u, qs) :: rest) c = assignAll d rest (cacheAssign u d qs c) := rfl
    rw [hstep, ih (cacheAssign u d qs c) t hrestnd, alookup_cons]
    by_cases h : t = u
    · subst h
      rw [if_pos rfl]
      have hrest : rest.lookup t = none := (alookup_eq_none t rest).mpr hu
      rw [hrest]
      exact cacheAssign_self t d qs c
    · rw [if_neg h]
      cases hr : rest.lookup t with
      | some ps => rfl
      | none => rw [cacheAssign_other u t h]

/-- After `indexCommon`, the cached positions of `(t, d)` are exactly the
`term_positions` entry of `t`, provided no cached map still contains `d`. -/
theorem cachePositions_indexCommon (st1 : SearchState) (d : Nat)
    (url title content : String)
    (hcache : ∀ p ∈ st1.invCache, p.2.lookup d = none) (t : String) :
    cachePositions (indexCommon st1 d url title content) t d =
      (termPositions (tokenize content)).lookup t := by
  simp only [cachePositions, indexCommon]
  rw [assignAll_lookup2 d _ _ t (nodup_keys_termPositions _)]
  cases htp : (termPositions (tokenize content)).lookup t with
  | some ps => rfl
  | none =>
    simp only []
    cases hc : st1.invCache.lookup t with
    | none => rfl
    | some m =>
      simpa using hcache (t, m) (mem_of_alookup hc)

/-- `search`'s cache-first postings lookup for a document agrees with the
cache entry when the term is cached and with the table otherwise. -/
theorem lookup_rowsFor (t : String) (d : Nat) (inv : List PostRow) :
    ((rowsFor t inv).map (fun r => (r.doc, r.positions))).lookup d =
      (inv.find? (fun r => r.term == t && r.doc == d)).map (fun r => r.positions) := by
  induction inv with
  | nil => simp [rowsFor, List.lookup]
  | cons r rest ih =>
    by_cases ht : r.term = t
    · rw [show rowsFor t (r :: rest) = r :: rowsFor t rest from by
        simp [rowsFor, List.filter_cons, ht]]
      rw [List.map_cons, alookup_cons]
      by_cases hd2 : d = r.doc
      · rw [List.find?_cons_of_pos _ (by simp [ht, hd2.symm])]
        simp [hd2]
      · rw [List.find?_cons_of_neg _
          (by simp [ht, beq_eq_false_iff_ne.mpr (Ne.symm hd2)])]
        rw [if_neg hd2]
        exact ih
    · rw [show rowsFor t (r :: rest) = rowsFor t rest from by
        simp [rowsFor, List.filter_cons, beq_eq_false_iff_ne.mpr ht]]
      rw [List.find?_cons_of_neg _ (by simp [beq_eq_false_iff_ne.mpr ht])]
      exact ih

/-- `postingsView`'s per-document entry, split by cache hit / miss. -/
theorem postingsView_alookup (st : SearchState) (t : String) (d : Nat) :
    (postingsView st t).lookup d =
      match st.invCache.lookup t with
      | some m => m.lookup d
      | none => dbPositions st t d := by
  unfold postingsView dbPositions
  cases h : st.invCache.lookup t with
  | some m => rfl
  | none =>
    simp only []
    exact lookup_rowsFor t d st.db.invIndex

/-- C7 (counterexample).  `_tokenize "a_b"` returns the single token
`"a_b"`, which is not a run of alphanumeric characters (it contains an
underscore), because Python's `\w` also matches `_`; under the claimed
split on non-alphanumeric boundaries, `"a_b"` would yield no token at all. -/
theorem tokenize_alnum_counterexample :
    tokenize "a_b" = ["a_b"] ∧ ("a_b".toList.all Char.isAlphanum) = false := by
  decide

/-- Maximality of `splitRunsAux`: every produced run is a contiguous
all-word-character slice of the full input, flanked on the left and on
the right by a non-word character (or by the input's edge).  The
invariant: the full input `W` is the processed prefix `pre0` (ending in a
non-word character if nonempty) followed by the current reversed run
`acc` (all word characters) and the remaining `input`. -/
theorem splitRunsAux_maximal (input : List Char) : ∀ (acc pre0 W : List Char),
    W = pre0 ++ acc.reverse ++ input →
    acc.all isWordChar = true →
    (∀ ch, pre0.getLast? = some ch → isWordChar ch = false) →
    ∀ l ∈ splitRunsAux input acc,
      l.all isWordChar = true ∧
      ∃ pre post, W = pre ++ l ++ post ∧
        (∀ ch, pre.getLast? = some ch → isWordChar ch = false) ∧
        (∀ ch, post.head? = some ch → isWordChar ch = false) := by
  induction input with
  | nil =>
    intro acc pre0 W hW hacc hpre l hl
    simp only [splitRunsAux] at hl
    split at hl
    · simp at hl
    · simp only [List.mem_singleton] at hl
      subst hl
      refine ⟨by simpa using hacc, pre0, [], ?_, hpre, by simp⟩
      exact hW
  | cons c rest ih =>
    intro acc pre0 W hW hacc hpre l hl
    simp only [splitRunsAux] at hl
    by_cases hw : isWordChar c = true
    · rw [if_pos hw] at hl
      refine ih (c :: acc) pre0 W ?_ (by simp [hacc, hw]) hpre l hl
      rw [hW]
      simp
    · have hw2 : isWordChar c = false := by simpa using hw
      rw [if_neg hw] at hl
      by_cases he : acc.isEmpty = true
      · rw [if_pos he] at hl
        have hacc0 : acc = [] := List.isEmpty_iff.mp he
        subst hacc0
        refine ih [] (pre0 ++ [c]) W ?_ (by simp) ?_ l hl
        · rw [hW]
          simp
        · intro ch hch
          rw [List.getLast?_concat] at hch
          cases hch
          exact hw2
      · rw [if_neg he] at hl
        rcases List.mem_cons.mp hl with rfl | hl2
        · refine ⟨by simpa using hacc, pre0, c :: rest, hW, hpre, ?_⟩
          intro ch hch
          rw [List.head?_cons] at hch
          cases hch
          exact hw2
        · refine ih [] (pre0 ++ acc.reverse ++ [c]) W ?_ (by simp) ?_ l hl2
          · rw [hW]
            simp
          · intro ch hch
            rw [List.getLast?_concat] at hch
            cases hch
            exact hw2

/-- C7 (amended).  `_tokenize` lowercases its input (ASCII) and returns
the maximal runs of word characters (alphanumeric or underscore,
Python's `\w`) of length at least 2: every returned token consists only
of word characters, has length at least 2, and occurs as a contiguous
slice of the lowercased input whose neighbouring characters on both
sides, when they exist, are not word characters. -/
theorem tokenize_tokens_shape (s t : String) (h : t ∈ tokenize s) :
    2 ≤ t.length ∧ t.toList.all isWordChar = true ∧
    ∃ pre post : List Char,
      s.toList.map Char.toLower = pre ++ t.toList ++ post ∧
      (∀ c, pre.getLast? = some c → isWordChar c = false) ∧
      (∀ c, post.head? = some c → isWordChar c = false) := by
  unfold tokenize at h
  rcases List.mem_filter.mp h with ⟨hmem, hlen⟩
  rcases List.mem_map.mp hmem with ⟨l, hl, rfl⟩
  have hshape := splitRunsAux_maximal (s.toList.map Char.toLower) [] []
    (s.toList.map Char.toLower) (by simp) (by simp) (by simp) l hl
  refine ⟨?_, hshape.1, ?_⟩
  · have : 1 < (String.mk l).length := by simpa using hlen
    omega
  · obtain ⟨pre, post, hdecomp, hpre, hpost⟩ := hshape.2
    exact ⟨pre, post, hdecomp, hpre, hpost⟩

/-- C7 (witness for the amended theorem): on `"Ab_c de F9"`, the token
`"ab_c"` is returned and is a maximal word-character run of the
lowercased input. -/
theorem tokenize_tokens_shape_witness :
    "ab_c" ∈ tokenize "Ab_c de F9" ∧
      (2 ≤ ("ab_c" : String).length ∧
        ("ab_c" : String).toList.all isWordChar = true ∧
        ∃ pre post : List Char,
          "Ab_c de F9".toList.map Char.toLower = pre ++ ("ab_c" : String).toList ++ post ∧
          (∀ c, pre.getLast? = some c → isWordChar c = false) ∧
          (∀ c, post.head? = some c → isWordChar c = false)) :=
  ⟨by decide, tokenize_tokens_shape "Ab_c de F9" "ab_c" (by decide)⟩

/-- C9.  After `_index_document`, every stored position list of the
indexed document is strictly increasing, and position `i` belongs to a
term's list exactly when that term is the `i`-th token of the content
(so the position lists partition the token indices); conversely every
token index appears in its own token's list.  The freshness hypothesis
says no stale row already carries the next autoincrement id, which holds
for every state the system actually reaches. -/
theorem index_positions_partition (st : SearchState) (url title content : String)
    (ts : Nat) (hfresh : ∀ r ∈ st.db.invIndex, r.doc ≠ st.db.nextId) :
    (∀ t ps, dbPositions (indexDocument st url title content ts).2 t
        (indexDocument st url title content ts).1 = some ps →
      ps.Pairwise (· < ·) ∧ ∀ i, i ∈ ps ↔ (tokenize content)[i]? = some t) ∧
    (∀ i t, (tokenize content)[i]? = some t →
      ∃ ps, dbPositions (indexDocument st url title content ts).2 t
          (indexDocument st url title content ts).1 = some ps ∧ i ∈ ps) := by
  have core : ∀ t, dbPositions (indexDocument st url title content ts).2 t
      (indexDocument st url title content ts).1 =
      (termPositions (tokenize content)).lookup t := by
    intro t
    cases hfind : st.db.documents.find? (fun r => r.url == url) with
    | some row =>
      simp only [indexDocument, hfind]
      apply dbPositions_indexCommon
      intro r hr
      rcases List.mem_filter.mp hr with ⟨_, hne⟩
      simpa using hne
    | none =>
      simp only [indexDocument, hfind]
      apply dbPositions_indexCommon
      intro r hr
      exact hfresh r hr
  constructor
  · intro t ps hps
    rw [core t, termPositions_alookup] at hps
    by_cases hocc : occFrom t 0 (tokenize content) = []
    · rw [if_pos hocc] at hps
      exact absurd hps (by simp)
    · rw [if_neg hocc] at hps
      obtain rfl : occFrom t 0 (tokenize content) = ps := Option.some_inj.mp hps
      refine ⟨occFrom_pairwise t (tokenize content) 0, fun i => ?_⟩
      rw [mem_occFrom]
      constructor
      · rintro ⟨k, hk, rfl⟩
        simpa using hk
      · intro hi
        exact ⟨i, hi, by omega⟩
  · intro i t hit
    have hmem : i ∈ occFrom t 0 (tokenize content) :=
      (mem_occFrom t (tokenize content) 0 i).mpr ⟨i, hit, by omega⟩
    refine ⟨occFrom t 0 (tokenize content), ?_, hmem⟩
    rw [core t, termPositions_alookup, if_neg (List.ne_nil_of_mem hmem)]

/-- C9 (witness): indexing `"cats chase mice. dogs chase cats."` into the
fresh store, token 0 is `"cats"` and its stored position list contains 0. -/
theorem index_positions_partition_witness :
    (∀ r ∈ initialState.db.invIndex, r.doc ≠ initialState.db.nextId) ∧
    ((tokenize "cats chase mice. dogs chase cats.")[0]? = some "cats" ∧
      ∃ ps, dbPositions
          (indexDocument initialState "https://x/a" "Animals"
            "cats chase mice. dogs chase cats." 7).2 "cats"
          (indexDocument initialState "https://x/a" "Animals"
            "cats chase mice. dogs chase cats." 7).1 = some ps ∧ 0 ∈ ps) :=
  ⟨by simp [initialState], by decide,
    (index_positions_partition initialState "https://x/a" "Animals"
      "cats chase mice. dogs chase cats." 7 (by simp [initialState])).2 0 "cats" (by decide)⟩

/-- C1.  Re-indexing an existing url purges every posting of that document
derived from the previous content, in the table and in the cache alike: a
term absent from the new content has no `(term, doc)` posting anywhere and
contributes score 0 to that document in a subsequent search, while every
term of the new content has a non-empty position list in both stores and
contributes a positive score. -/
theorem update_invalidation (st : SearchState) (url title content2 : String)
    (ts : Nat) (row : DocRow)
    (hfind : st.db.documents.find? (fun r => r.url == url) = some row) :
    (∀ t, t ∉ tokenize content2 →
        dbPositions (indexDocument st url title content2 ts).2 t row.id = none ∧
        cachePositions (indexDocument st url title content2 ts).2 t row.id = none ∧
        scoreOf (indexDocument st url title content2 ts).2 [t] row.id = 0) ∧
    (∀ t, t ∈ tokenize content2 →
        ∃ ps, ps ≠ [] ∧
          dbPositions (indexDocument st url title content2 ts).2 t row.id = some ps ∧
          cachePositions (indexDocument st url title content2 ts).2 t row.id = some ps ∧
          0 < scoreOf (indexDocument st url title content2 ts).2 [t] row.id) := by
  have hdb : ∀ t, dbPositions (indexDocument st url title content2 ts).2 t row.id =
      (termPositions (tokenize content2)).lookup t := by
    intro t
    simp only [indexDocument, hfind]
    apply dbPositions_indexCommon
    intro r hr
    rcases List.mem_filter.mp hr with ⟨_, hne⟩
    simpa using hne
  have hcache : ∀ t, cachePositions (indexDocument st url title content2 ts).2 t row.id =
      (termPositions (tokenize content2)).lookup t := by
    intro t
    simp only [indexDocument, hfind]
    apply cachePositions_indexCommon
    exact purgeDoc_no_doc row.id st.invCache
  have hscore : ∀ t, scoreOf (indexDocument st url title content2 ts).2 [t] row.id =
      (((termPositions (tokenize content2)).lookup t).getD []).length := by
    intro t
    simp only [scoreOf, List.map_cons, List.map_nil, List.sum_cons, List.sum_nil,
      Nat.add_zero]
    rw [postingsView_alookup]
    cases hc : (indexDocument st url title content2 ts).2.invCache.lookup t with
    | some m =>
      have hm := hcache t
      simp only [cachePositions, hc, Option.some_bind] at hm
      simp only []
      rw [hm]
    | none =>
      have hm := hdb t
      simp only []
      rw [hm]
  constructor
  · intro t ht
    have hocc : occFrom t 0 (tokenize content2) = [] :=
      (occFrom_eq_nil t (tokenize content2) 0).mpr ht
    have hl : (termPositions (tokenize content2)).lookup t = none := by
      rw [termPositions_alookup, if_pos hocc]
    exact ⟨by rw [hdb t, hl], by rw [hcache t, hl], by rw [hscore t, hl]; rfl⟩
  · intro t ht
    have hocc : occFrom t 0 (tokenize content2) ≠ [] := by
      intro h
      exact absurd ht ((occFrom_eq_nil t (tokenize content2) 0).mp h)
    have hl : (termPositions (tokenize content2)).lookup t =
        some (occFrom t 0 (tokenize content2)) := by
      rw [termPositions_alookup, if_neg hocc]
    refine ⟨occFrom t 0 (tokenize content2), hocc, by rw [hdb t, hl],
      by rw [hcache t, hl], ?_⟩
    rw [hscore t, hl]
    simpa [List.length_pos] using hocc

/-- C1 (witness): re-index the url of a one-document store, replacing
`"cats chase mice. dogs chase cats."` with `"birds fly south"`; the old
term `"cats"` keeps no posting and scores 0, the new term `"birds"` has a
non-empty posting and scores positively. -/
theorem update_invalidation_witness :
    ((indexDocument initialState "https://x/a" "Animals"
        "cats chase mice. dogs chase cats." 7).2.db.documents.find?
      (fun r => r.url == "https://x/a") =
        some { id := 1, url := "https://x/a", title := "Animals",
               content := "cats chase mice. dogs chase cats.", lastScraped := 7 }) ∧
    ("cats" ∉ tokenize "birds fly south" ∧
      dbPositions (indexDocument (indexDocument initialState "https://x/a" "Animals"
          "cats chase mice. dogs chase cats." 7).2 "https://x/a" "Animals"
          "birds fly south" 9).2 "cats" 1 = none) ∧
    ("birds" ∈ tokenize "birds fly south" ∧
      ∃ ps, ps ≠ [] ∧
        dbPositions (indexDocument (indexDocument initialState "https://x/a" "Animals"
            "cats chase mice. dogs chase cats." 7).2 "https://x/a" "Animals"
            "birds fly south" 9).2 "birds" 1 = some ps ∧
        cachePositions (indexDocument (indexDocument initialState "https://x/a" "Animals"
            "cats chase mice. dogs chase cats." 7).2 "https://x/a" "Animals"
            "birds fly south" 9).2 "birds" 1 = some ps ∧
        0 < scoreOf (indexDocument (indexDocument initialState "https://x/a" "Animals"
            "cats chase mice. dogs chase cats." 7).2 "https://x/a" "Animals"
            "birds fly south" 9).2 ["birds"] 1) :=
  ⟨by decide,
   ⟨by decide,
    (((update_invalidation (indexDocument initialState "https://x/a" "Animals"
        "cats chase mice. dogs chase cats." 7).2 "https://x/a" "Animals"
        "birds fly south" 9
        { id := 1, url := "https://x/a", title := "Animals", content := "cats chase mice. dogs chase cats.", lastScraped := 7 }
        (by decide)).1 "cats" (by decide)).1)⟩,
   ⟨by decide,
    ((update_invalidation (indexDocument initialState "https://x/a" "Animals"
        "cats chase mice. dogs chase cats." 7).2 "https://x/a" "Animals"
        "birds fly south" 9
        { id := 1, url := "https://x/a", title := "Animals", content := "cats chase mice. dogs chase cats.", lastScraped := 7 }
        (by decide)).2 "birds" (by decide))⟩⟩

/-- C2.  Indexing the same `(url, title, content)` twice in succession
leaves the `inverted_index` table exactly as one indexing does (the
timestamps of the two calls may even differ).  The freshness hypothesis
says no stale row already carries the next autoincrement id, which holds
for every state the system actually reaches. -/
theorem index_idempotent (st : SearchState) (url title content : String)
    (ts1 ts2 : Nat) (hfresh : ∀ r ∈ st.db.invIndex, r.doc ≠ st.db.nextId) :
    (indexDocument (indexDocument st url title content ts1).2
        url title content ts2).2.db.invIndex
      = (indexDocument st url title content ts1).2.db.invIndex := by
  cases hfind : st.db.documents.find? (fun r => r.url == url) with
  | none =>
    have hfind2 : List.find? (fun r => r.url == url)
        (st.db.documents ++ [⟨st.db.nextId, url, title, content, ts1⟩]) =
          some ⟨st.db.nextId, url, title, content, ts1⟩ := by
      rw [List.find?_append, hfind, Option.none_or,
        List.find?_cons_of_pos _ (by simp)]
    simp only [indexDocument, hfind, indexCommon, hfind2]
    rw [List.filter_append, filter_toRow_nil, List.append_nil,
      List.filter_eq_self.mpr (fun r hr => by simpa using hfresh r hr)]
  | some row =>
    have hcomp : ∀ r : DocRow,
        (((if r.id == row.id then { r with title := title, content := content, lastScraped := ts1 } else r) : DocRow).url == url) = (r.url == url) := by
      intro r
      by_cases h : r.id = row.id <;> simp [h]
    have hfind2 : List.find? (fun r => r.url == url)
        (st.db.documents.map (fun r =>
          if r.id == row.id then { r with title := title, content := content, lastScraped := ts1 } else r)) =
          some { row with title := title, content := content, lastScraped := ts1 } := by
      rw [List.find?_map]
      simp only [Function.comp_def, hcomp]
      rw [hfind]
      simp
    simp only [indexDocument, hfind, indexCommon, hfind2]
    rw [List.filter_append, filter_toRow_nil, List.append_nil,
      List.filter_eq_self.mpr (fun r hr => (List.mem_filter.mp hr).2)]

/-- C2 (witness): indexing `"hello world hello"` twice into the fresh
store leaves the same postings as indexing it once. -/
theorem index_idempotent_witness :
    (∀ r ∈ initialState.db.invIndex, r.doc ≠ initialState.db.nextId) ∧
    (indexDocument (indexDocument initialState "https://x/a" "T"
        "hello world hello" 1).2 "https://x/a" "T" "hello world hello" 2).2.db.invIndex
      = (indexDocument initialState "https://x/a" "T" "hello world hello" 1).2.db.invIndex :=
  ⟨by simp [initialState],
   index_idempotent initialState "https://x/a" "T" "hello world hello" 1 2
     (by simp [initialState])⟩

/-! ## Document-cache bound (C10) -/

/-- Assigning `document_cache[d] = v` makes `d`'s entry `v`. -/
theorem dcAssign_lookup_self (d : Nat) (v : DocData) (m : List (Nat × DocData)) :
    (dcAssign d v m).lookup d = some v := by
  unfold dcAssign
  by_cases hs : (m.lookup d).isSome
  · rw [if_pos hs, alookup_mapUpdate, if_pos rfl]
    rcases Option.isSome_iff_exists.mp hs with ⟨w, hw⟩
    rw [hw]
    rfl
  · rw [if_neg hs, alookup_append, Option.not_isSome_iff_eq_none.mp hs]
    simp [alookup_cons, List.lookup]

/-- Key sequence after a `document_cache` assignment. -/
theorem keys_dcAssign (d : Nat) (v : DocData) (m : List (Nat × DocData)) :
    (dcAssign d v m).map Prod.fst =
      if (m.lookup d).isSome then m.map Prod.fst else m.map Prod.fst ++ [d] := by
  unfold dcAssign
  by_cases hs : (m.lookup d).isSome
  · rw [if_pos hs, if_pos hs]
    exact keys_mapUpdate d v m
  · rw [if_neg hs, if_neg hs]
    simp

/-- A `document_cache` assignment grows the cache by at most one entry. -/
theorem length_dcAssign_le (d : Nat) (v : DocData) (m : List (Nat × DocData)) :
    (dcAssign d v m).length ≤ m.length + 1 := by
  have h := congrArg List.length (keys_dcAssign d v m)
  simp only [List.length_map] at h
  rw [h]
  split <;> simp

/-- A `document_cache` assignment preserves key distinctness. -/
theorem nodup_keys_dcAssign (d : Nat) (v : DocData) (m : List (Nat × DocData))
    (h : (m.map Prod.fst).Nodup) : ((dcAssign d v m).map Prod.fst).Nodup := by
  rw [keys_dcAssign]
  cases hs : (m.lookup d).isSome
  · simp only [Bool.false_eq_true, if_false]
    rw [List.nodup_append]
    refine ⟨h, List.nodup_singleton d, ?_⟩
    simpa using (alookup_eq_none d m).mp (Option.not_isSome_iff_eq_none.mp (by simp [hs]))
  · simpa using h

/-- Filtering out one key leaves every other key's entry unchanged. -/
theorem alookup_filter_ne {β : Type} (k d : Nat) (h : d ≠ k) (l : List (Nat × β)) :
    (l.filter (fun q => q.1 != k)).lookup d = l.lookup d := by
  induction l with
  | nil => simp
  | cons p rest ih =>
    obtain ⟨a, b⟩ := p
    by_cases ha : a = k
    · subst ha
      rw [show List.filter (fun q => q.1 != a) ((a, b) :: rest)
          = List.filter (fun q => q.1 != a) rest from by simp [List.filter_cons]]
      rw [ih, alookup_cons, if_neg h]
    · rw [show List.filter (fun q => q.1 != k) ((a, b) :: rest)
          = (a, b) :: List.filter (fun q => q.1 != k) rest from by
        simp [List.filter_cons, bne_iff_ne, ha]]
      rw [alookup_cons, alookup_cons, ih]

/-- C10 core: inserting into the bounded document cache keeps it within
`limit` entries and never evicts the entry just inserted, provided the
cache was within bounds, its keys are distinct and no key is 0 (SQLite
row ids are positive, so key 0 never occurs; a key 0 would be falsy and
block the eviction). -/
theorem cacheInsertWithEvict_bound (limit d : Nat) (v : DocData)
    (cache : List (Nat × DocData)) (hlim : 1 ≤ limit)
    (hlen : cache.length ≤ limit) (hnd : (cache.map Prod.fst).Nodup)
    (hkeys : ∀ k ∈ cache.map Prod.fst, k ≠ 0) :
    (cacheInsertWithEvict limit d v cache).length ≤ limit ∧
    (cacheInsertWithEvict limit d v cache).lookup d = some v := by
  unfold cacheInsertWithEvict
  have hlook : (dcAssign d v cache).lookup d = some v := dcAssign_lookup_self d v cache
  by_cases hover : limit < (dcAssign d v cache).length
  · rw [if_pos hover]
    cases hfound : (dcAssign d v cache).find? (fun p => p.1 != d) with
    | none =>
      exfalso
      have hall : ∀ p ∈ dcAssign d v cache, p.1 = d := by
        intro p hp
        have := List.find?_eq_none.mp hfound p hp
        simpa using this
      have hndc1 : ((dcAssign d v cache).map Prod.fst).Nodup :=
        nodup_keys_dcAssign d v cache hnd
      have hlen2 : 2 ≤ (dcAssign d v cache).length := by omega
      cases hc : dcAssign d v cache with
      | nil =>
        rw [hc] at hlen2
        simp at hlen2
      | cons a tl =>
        cases tl with
        | nil =>
          rw [hc] at hlen2
          simp at hlen2
        | cons b tl2 =>
          rw [hc] at hall hndc1
          have ha : a.1 = d := hall a (by simp)
          have hb : b.1 = d := hall b (by simp)
          rw [List.map_cons, List.map_cons, List.nodup_cons] at hndc1
          exact hndc1.1 (by rw [ha, hb]; exact List.mem_cons_self _ _)
    | some p =>
      have hpne : p.1 ≠ d := by simpa using List.find?_some hfound
      have hpmem : p ∈ dcAssign d v cache := List.mem_of_find?_eq_some hfound
      have hp0 : p.1 ≠ 0 := by
        have hk : p.1 ∈ (dcAssign d v cache).map Prod.fst :=
          List.mem_map_of_mem Prod.fst hpmem
        rw [keys_dcAssign] at hk
        split at hk
        · exact hkeys p.1 hk
        · rcases List.mem_append.mp hk with hk2 | hk2
          · exact hkeys p.1 hk2
          · simp only [List.mem_singleton] at hk2
            exact absurd hk2 hpne
      simp only []
      rw [if_pos (by simpa using hp0)]
      constructor
      · have hlt : ((dcAssign d v cache).filter (fun q => q.1 != p.1)).length <
            (dcAssign d v cache).length :=
          List.length_filter_lt_length_iff_exists.mpr ⟨p, hpmem, by simp⟩
        have hle := length_dcAssign_le d v cache
        omega
      · rw [alookup_filter_ne p.1 d (Ne.symm hpne)]
        exact hlook
  · rw [if_neg hover]
    exact ⟨by omega, hlook⟩

/-- C10.  Both operations that insert into the document cache —
`_index_document` and `_get_document_content` — keep it within
`CACHE_DOCUMENTS_LIMIT` entries, and the entry just inserted is never the
one evicted (it is still present afterwards).  Hypotheses: the cache was
within bounds with distinct, nonzero keys (SQLite row ids are ≥ 1; the
code's truthiness test `if oldest_doc_id_in_cache:` would skip eviction
for key 0). -/
theorem docCache_bounded (st : SearchState) (url title content : String)
    (ts : Nat) (d : Nat)
    (hlen : st.docCache.length ≤ CACHE_DOCUMENTS_LIMIT)
    (hnd : (st.docCache.map Prod.fst).Nodup)
    (hkeys : ∀ k ∈ st.docCache.map Prod.fst, k ≠ 0) :
    ((indexDocument st url title content ts).2.docCache.length ≤ CACHE_DOCUMENTS_LIMIT ∧
      (indexDocument st url title content ts).2.docCache.lookup
        (indexDocument st url title content ts).1 =
          some ⟨url, title, content⟩) ∧
    ((getDocumentContent st d).2.docCache.length ≤ CACHE_DOCUMENTS_LIMIT ∧
      ∀ v, (getDocumentContent st d).1 = some v →
        (getDocumentContent st d).2.docCache.lookup d = some v) := by
  have hlim : 1 ≤ CACHE_DOCUMENTS_LIMIT := by decide
  constructor
  · cases hfind : st.db.documents.find? (fun r => r.url == url) with
    | some row =>
      simp only [indexDocument, hfind, indexCommon]
      apply cacheInsertWithEvict_bound CACHE_DOCUMENTS_LIMIT row.id
        ⟨url, title, content⟩ (st.docCache.filter (fun p => p.1 != row.id)) hlim
      · exact Nat.le_trans (List.length_filter_le _ _) hlen
      · exact List.Nodup.sublist (List.Sublist.map Prod.fst (List.filter_sublist _)) hnd
      · intro k hk
        rcases List.mem_map.mp hk with ⟨q, hq, rfl⟩
        exact hkeys q.1 (List.mem_map_of_mem Prod.fst (List.mem_of_mem_filter hq))
    | none =>
      simp only [indexDocument, hfind, indexCommon]
      exact cacheInsertWithEvict_bound CACHE_DOCUMENTS_LIMIT st.db.nextId
        ⟨url, title, content⟩ st.docCache hlim hlen hnd hkeys
  · cases hc : st.docCache.lookup d with
    | some w =>
      simp only [getDocumentContent, hc]
      exact ⟨hlen, fun v hv => hv⟩
    | none =>
      cases hrow : st.db.documents.find? (fun r => r.id == d) with
      | none =>
        simp only [getDocumentContent, hc, hrow]
        exact ⟨hlen, fun v hv => by simp at hv⟩
      | some r =>
        simp only [getDocumentContent, hc, hrow]
        have h := cacheInsertWithEvict_bound CACHE_DOCUMENTS_LIMIT d
          ⟨r.url, r.title, r.content⟩ st.docCache hlim hlen hnd hkeys
        exact ⟨h.1, fun v hv => by
          rw [h.2]
          exact congrArg some (Option.some_inj.mp hv)⟩

/-- C10 (witness): on the fresh (empty, trivially well-formed) cache,
indexing a document and a cache-miss `_get_document_content` both respect
the bound and keep the inserted entry. -/
theorem docCache_bounded_witness :
    (initialState.docCache.length ≤ CACHE_DOCUMENTS_LIMIT ∧
      (initialState.docCache.map Prod.fst).Nodup ∧
      (∀ k ∈ initialState.docCache.map Prod.fst, k ≠ 0)) ∧
    ((indexDocument initialState "https://x/a" "T" "hello world" 3).2.docCache.length ≤
        CACHE_DOCUMENTS_LIMIT ∧
      (indexDocument initialState "https://x/a" "T" "hello world" 3).2.docCache.lookup
        (indexDocument initialState "https://x/a" "T" "hello world" 3).1 =
          some ⟨"https://x/a", "T", "hello world"⟩) :=
  ⟨⟨by decide, by simp [initialState], by simp [initialState]⟩,
   (docCache_bounded initialState "https://x/a" "T" "hello world" 3 1
     (by decide) (by simp [initialState]) (by simp [initialState])).1⟩

/-! ## Snippet length bound (C4) -/

/-- Dropping a prefix cannot lengthen a list. -/
theorem length_dropWhile_le (p : Char → Bool) (l : List Char) :
    (l.dropWhile p).length ≤ l.length := by
  induction l with
  | nil => simp
  | cons a tl ih =>
    rw [List.dropWhile_cons]
    split
    · exact Nat.le_trans ih (Nat.le_succ _)
    · exact Nat.le_refl _

/-- `str.strip()` never lengthens a string. -/
theorem length_pyStrip_le (l : List Char) : (pyStrip l).length ≤ l.length := by
  unfold pyStrip
  rw [List.length_reverse]
  refine Nat.le_trans (length_dropWhile_le _ _) ?_
  rw [List.length_reverse]
  exact length_dropWhile_le _ _

/-- A hit of the backwards scan is a valid index. -/
theorem rfindIdxAux_lt (p : Char → Bool) : ∀ (l : List Char) (i : Nat)
    (best : Option Nat), (∀ j, best = some j → j < i) →
    ∀ j, rfindIdxAux p l i best = some j → j < i + l.length := by
  intro l
  induction l with
  | nil =>
    intro i best hb j h
    simp only [rfindIdxAux] at h
    have := hb j h
    omega
  | cons c tl ih =>
    intro i best hb j h
    simp only [rfindIdxAux] at h
    have := ih (i + 1) (if p c then some i else best)
      (by
        intro j2 hj2
        split at hj2
        · cases hj2
          omega
        · have := hb j2 hj2
          omega) j h
    simpa [Nat.add_comm, Nat.add_left_comm] using this

/-- `rfindIdx` returns an index below the length. -/
theorem rfindIdx_lt (p : Char → Bool) (l : List Char) (j : Nat)
    (h : rfindIdx p l = some j) : j < l.length := by
  have := rfindIdxAux_lt p l 0 none (by simp) j h
  simpa using this

/-- The final truncate-and-strip stage of `_generate_snippet` emits at
most `MAX_SNIPPET_LENGTH + 3` characters, whatever came before it. -/
theorem trim_length_le (s1 : List Char) :
    (pyStrip (if MAX_SNIPPET_LENGTH < s1.length then
        (match rfindIdx isSentPunct (s1.take MAX_SNIPPET_LENGTH) with
         | some j => (s1.take MAX_SNIPPET_LENGTH).take (j + 1)
         | none => rsplitSpaceHead (s1.take MAX_SNIPPET_LENGTH) ++ "...".toList)
      else s1)).length ≤ MAX_SNIPPET_LENGTH + 3 := by
  refine Nat.le_trans (length_pyStrip_le _) ?_
  by_cases hover : MAX_SNIPPET_LENGTH < s1.length
  · rw [if_pos hover]
    cases hr : rfindIdx isSentPunct (s1.take MAX_SNIPPET_LENGTH) with
    | some j =>
      simp only []
      have hj : j < (s1.take MAX_SNIPPET_LENGTH).length := rfindIdx_lt _ _ _ hr
      have h1 : (s1.take MAX_SNIPPET_LENGTH).length ≤ MAX_SNIPPET_LENGTH := by
        rw [List.length_take]
        exact min_le_left _ _
      have h2 : ((s1.take MAX_SNIPPET_LENGTH).take (j + 1)).length ≤ j + 1 := by
        rw [List.length_take]
        exact min_le_left _ _
      omega
    | none =>
      simp only [List.length_append]
      have hrs : (rsplitSpaceHead (s1.take MAX_SNIPPET_LENGTH)).length ≤
          MAX_SNIPPET_LENGTH := by
        unfold rsplitSpaceHead
        cases h2 : rfindIdx (fun c => c == ' ') (s1.take MAX_SNIPPET_LENGTH) with
        | some j =>
          simp only []
          refine Nat.le_trans ?_ (show (s1.take MAX_SNIPPET_LENGTH).length ≤
            MAX_SNIPPET_LENGTH by rw [List.length_take]; exact min_le_left _ _)
          rw [List.length_take]
          exact min_le_right _ _
        | none =>
          simp only []
          rw [List.length_take]
          exact min_le_left _ _
      have h3 : ("...".toList).length = 3 := by decide
      omega
  · rw [if_neg hover]
    omega

set_option maxRecDepth 100000 in
/-- C4 (counterexample).  On 301 copies of `'a'` and an empty query, the
snippet is 303 characters long, exceeding `MAX_SNIPPET_LENGTH = 300`: the
fallback slice appends an ellipsis, the trim cuts back to 300, finds no
punctuation and no space, and appends another ellipsis to the full
300-character string. -/
theorem snippet_bound_counterexample :
    MAX_SNIPPET_LENGTH < (generateSnippetL (List.replicate 301 'a') []).length ∧
    (generateSnippetL (List.replicate 301 'a') []).length = 303 := by
  decide

/-- C4 (amended).  For every document content and query-token list, the
snippet returned by `_generate_snippet` has length at most
`MAX_SNIPPET_LENGTH + 3` (the configured maximum plus the appended
ellipsis); the configured maximum itself can be exceeded, by at most
those three characters. -/
theorem snippet_length_bound (content : List Char) (queryTokens : List (List Char)) :
    (generateSnippetL content queryTokens).length ≤ MAX_SNIPPET_LENGTH + 3 := by
  unfold generateSnippetL
  exact trim_length_le _

/-- C3 (counterexample).  A pagination link that is already in the indexed
set but not queued is *not* a no-op: `_scrape_and_index_url` checks only
`queued_urls_cache` before prioritizing a pagination link, so an indexed
URL is re-enqueued at the front and the frontier grows. -/
theorem enqueue_dedup_counterexample :
    ("https://i" ∈ c3CexState.indexedUrls) ∧
    (enqueuePagination c3CexState "https://c" "https://i").scrapeQueue.length = 1 ∧
    c3CexState.scrapeQueue.length = 0 := by
  decide

/-- C3 (amended).  Enqueueing a URL that is already queued is a no-op at
either priority, and enqueueing an already-indexed URL at article (back)
priority is a no-op; but an indexed-yet-unqueued URL offered as a
pagination link is still enqueued (only the queued set guards that path). -/
theorem enqueue_dedup (st : SearchState) (cur u : String) :
    (u ∈ st.queuedUrls →
      enqueuePagination st cur u = st ∧ enqueueArticle st cur u = st) ∧
    (u ∈ st.indexedUrls → enqueueArticle st cur u = st) := by
  refine ⟨fun h => ⟨?_, ?_⟩, fun h => ?_⟩
  · simp [enqueuePagination, h]
  · simp [enqueueArticle, h]
  · simp [enqueueArticle, h]

/-- C3 (witness): with `"https://q"` queued and `"https://i"` indexed,
both enqueue paths leave the state untouched where the amended claim says so. -/
theorem enqueue_dedup_witness :
    ("https://q" ∈ c3State.queuedUrls ∧
      enqueuePagination c3State "https://c" "https://q" = c3State) ∧
    ("https://i" ∈ c3State.indexedUrls ∧
      enqueueArticle c3State "https://c" "https://i" = c3State) :=
  ⟨⟨by decide, ((enqueue_dedup c3State "https://c" "https://q").1 (by decide)).1⟩,
   ⟨by decide, (enqueue_dedup c3State "https://c" "https://i").2 (by decide)⟩⟩

/-- C8.  A query whose tokenization is empty makes `search` return the
empty list without touching the index, and `llm_search_interface` wraps it
as `results = []` with the no-results message. -/
theorem empty_query_no_results (st : SearchState) (q : String)
    (h : tokenize q = []) :
    (llmSearchInterface st q).1.results = [] ∧
    (llmSearchInterface st q).1.message = "No results found for your query." := by
  simp [llmSearchInterface, search, h]

/-- C8 (witness): the query `"??"` tokenizes to nothing and yields
`results = []` with the no-results message. -/
theorem empty_query_no_results_witness :
    tokenize "??" = [] ∧
    (llmSearchInterface initialState "??").1.results = [] ∧
    (llmSearchInterface initialState "??").1.message = "No results found for your query." :=
  ⟨by decide, (empty_query_no_results initialState "??" (by decide)).1,
    (empty_query_no_results initialState "??" (by decide)).2⟩

/-- C5 (code bug).  `_index_document` commits the document update and the
deletion of the old postings *before* inserting the new postings; when the
postings batch insert then fails, the exception handler's rollback cannot
undo the already-committed first half.  On the concrete store `c5Db`,
re-indexing the URL with failing postings write returns `None` yet leaves
the committed store with the *new* document row and *no* postings at all —
not the pre-call state the claim requires. -/
theorem indexDocument_rollback_incomplete :
    (indexDocumentDb ⟨c5Db, c5Db⟩ "https://x/a" "T2" "new dog" 5 true).1 = none ∧
    (indexDocumentDb ⟨c5Db, c5Db⟩ "https://x/a" "T2" "new dog" 5 true).2.committed ≠ c5Db ∧
    (indexDocumentDb ⟨c5Db, c5Db⟩ "https://x/a" "T2" "new dog" 5 true).2.committed.invIndex = [] ∧
    (indexDocumentDb ⟨c5Db, c5Db⟩ "https://x/a" "T2" "new dog" 5 true).2.committed.documents.map
      DocRow.content = ["new dog"] ∧
    c5Db.invIndex.length = 2 := by
  decide

/-! ## Search scoring (C6) -/

/-- `doc_scores[d] += k` seen through `lookup`. -/
theorem bumpScore_lookup (sc : List (Nat × Nat)) (d0 k d : Nat) :
    (bumpScore sc d0 k).lookup d =
      if d = d0 then some (((sc.lookup d0).getD 0) + k) else sc.lookup d := by
  unfold bumpScore
  cases hs : sc.lookup d0 with
  | some s =>
    simp only []
    rw [alookup_mapUpdate]
    by_cases h : d = d0
    · rw [if_pos h, if_pos h, hs]
      rfl
    · rw [if_neg h, if_neg h]
  | none =>
    simp only []
    rw [alookup_append, alookup_cons]
    by_cases h : d = d0
    · subst h
      rw [if_pos rfl, if_pos rfl, hs]
      simp
    · rw [if_neg h, if_neg h]
      cases sc.lookup d <;> simp [List.lookup]

/-- Key sequence after one score bump. -/
theorem keys_bumpScore (sc : List (Nat × Nat)) (d0 k : Nat) :
    (bumpScore sc d0 k).map Prod.fst =
      if (sc.lookup d0).isSome then sc.map Prod.fst else sc.map Prod.fst ++ [d0] := by
  unfold bumpScore
  cases hs : sc.lookup d0 with
  | some s =>
    simp only [Option.isSome_some, if_true]
    exact keys_mapUpdate d0 (s + k) sc
  | none => simp

/-- A score bump preserves key distinctness. -/
theorem nodup_keys_bumpScore (sc : List (Nat × Nat)) (d0 k : Nat)
    (h : (sc.map Prod.fst).Nodup) : ((bumpScore sc d0 k).map Prod.fst).Nodup := by
  rw [keys_bumpScore]
  by_cases hs : (sc.lookup d0).isSome
  · rw [if_pos hs]
    exact h
  · rw [if_neg hs, List.nodup_append]
    exact ⟨h, List.nodup_singleton _,
      by simpa using (alookup_eq_none d0 sc).mp (Option.not_isSome_iff_eq_none.mp hs)⟩

/-- Head decomposition of `weightOf`. -/
theorem weightOf_cons (q : Nat × List Nat) (m : PostMap) (d : Nat) :
    weightOf (q :: m) d = (if q.1 = d then q.2.length else 0) + weightOf m d := by
  unfold weightOf
  rw [List.filter_cons]
  by_cases h : q.1 = d
  · rw [if_pos (by simpa using h), if_pos h]
    simp
  · rw [if_neg (by simpa using h), if_neg h]
    simp

/-- A document absent from a postings map receives no weight from it. -/
theorem weightOf_eq_zero (m : PostMap) (d : Nat) (h : d ∉ m.map Prod.fst) :
    weightOf m d = 0 := by
  unfold weightOf
  have hnil : m.filter (fun q => q.1 == d) = [] := by
    rw [List.filter_eq_nil_iff]
    intro q hq
    simp only [beq_iff_eq]
    intro hqd
    exact h (by rw [← hqd]; exact List.mem_map_of_mem Prod.fst hq)
  rw [hnil]
  rfl

/-- With duplicate-free keys, the weight is the looked-up list's length. -/
theorem weightOf_eq_lookup (m : PostMap) (d : Nat)
    (hnd : (m.map Prod.fst).Nodup) :
    weightOf m d = ((m.lookup d).getD []).length := by
  induction m with
  | nil => simp [weightOf, List.lookup]
  | cons q rest ih =>
    rw [List.map_cons, List.nodup_cons] at hnd
    rw [weightOf_cons, alookup_cons]
    by_cases h : q.1 = d
    · rw [if_pos h, if_pos h.symm]
      have hz : weightOf rest d = 0 :=
        weightOf_eq_zero rest d (by rw [← h]; exact hnd.1)
      rw [hz]
      rfl
    · rw [if_neg h, if_neg (fun hh => h hh.symm)]
      rw [ih hnd.2]
      simp

/-- The per-token accumulation loop adds exactly `weightOf` to each
document's score (reading absent entries as 0). -/
theorem innerFold_lookup_getD (m : PostMap) : ∀ (sc : List (Nat × Nat)) (d : Nat),
    ((m.foldl (fun acc q => bumpScore acc q.1 q.2.length) sc).lookup d).getD 0 =
      (sc.lookup d).getD 0 + weightOf m d := by
  induction m with
  | nil =>
    intro sc d
    simp [weightOf]
  | cons q rest ih =>
    intro sc d
    rw [List.foldl_cons, ih, bumpScore_lookup, weightOf_cons]
    by_cases h : d = q.1
    · subst h
      rw [if_pos rfl, if_pos rfl]
      simp [Nat.add_assoc]
    · rw [if_neg h, if_neg (fun hh => h hh.symm)]
      simp

/-- The accumulation loop preserves key distinctness of the score dict. -/
theorem nodup_keys_innerFold (m : PostMap) : ∀ (sc : List (Nat × Nat)),
    (sc.map Prod.fst).Nodup →
    (((m.foldl (fun acc q => bumpScore acc q.1 q.2.length) sc)).map Prod.fst).Nodup := by
  induction m with
  | nil => intro sc h; simpa using h
  | cons q rest ih =>
    intro sc h
    rw [List.foldl_cons]
    exact ih _ (nodup_keys_bumpScore sc q.1 q.2.length h)

/-- With duplicate-free keys, membership determines the `lookup`. -/
theorem alookup_of_mem_nodup {α β : Type} [DecidableEq α] {l : List (α × β)}
    {p : α × β} (hnd : (l.map Prod.fst).Nodup) (hp : p ∈ l) :
    l.lookup p.1 = some p.2 := by
  induction l with
  | nil => simp at hp
  | cons q rest ih =>
    rw [List.map_cons, List.nodup_cons] at hnd
    rcases List.mem_cons.mp hp with rfl | hp2
    · rw [alookup_cons, if_pos rfl]
    · rw [alookup_cons]
      by_cases h : p.1 = q.1
      · exact absurd (h ▸ List.mem_map_of_mem Prod.fst hp2) hnd.1
      · rw [if_neg h]
        exact ih hnd.2 hp2

/-- Under the table's `(term, doc_id)` primary key, the rows of one term
have pairwise-distinct doc ids. -/
theorem rowsFor_docs_nodup (t : String) (inv : List PostRow)
    (hdb : inv.Pairwise (fun a b => a.term ≠ b.term ∨ a.doc ≠ b.doc)) :
    (((rowsFor t inv).map (fun r => (r.doc, r.positions))).map Prod.fst).Nodup := by
  rw [List.map_map]
  have hpair : (rowsFor t inv).Pairwise (fun a b => a.doc ≠ b.doc) := by
    have hsub : (rowsFor t inv).Sublist inv := List.filter_sublist inv
    have hpw := List.Pairwise.sublist hsub hdb
    refine List.Pairwise.imp_of_mem ?_ hpw
    intro a b ha hb hr
    have hat : a.term = t := by simpa using (List.mem_filter.mp ha).2
    have hbt : b.term = t := by simpa using (List.mem_filter.mp hb).2
    rcases hr with h | h
    · exact absurd (hat.trans hbt.symm) h
    · exact h
  exact List.pairwise_map.mpr hpair

/-- The score fold over table rows is the score fold over their
`(doc, positions)` pairs. -/
theorem foldl_bump_rows (rows : List PostRow) : ∀ (sc : List (Nat × Nat)),
    rows.foldl (fun acc r => bumpScore acc r.doc r.positions.length) sc =
      (rows.map (fun r => (r.doc, r.positions))).foldl
        (fun acc q => bumpScore acc q.1 q.2.length) sc := by
  induction rows with
  | nil => intro sc; rfl
  | cons r rest ih =>
    intro sc
    rw [List.foldl_cons, List.map_cons, List.foldl_cons, ih]

/-- The cache-population fold over table rows is the fold over their
`(doc, positions)` pairs. -/
theorem foldl_pmAssign_rows (rows : List PostRow) : ∀ (acc : PostMap),
    rows.foldl (fun m r => pmAssign r.doc r.positions m) acc =
      (rows.map (fun r => (r.doc, r.positions))).foldl
        (fun m q => pmAssign q.1 q.2 m) acc := by
  induction rows with
  | nil => intro acc; rfl
  | cons r rest ih =>
    intro acc
    rw [List.foldl_cons, List.map_cons, List.foldl_cons, ih]

/-- Assigning pairwise-distinct fresh keys into a dict just appends them. -/
theorem foldl_pmAssign_append : ∀ (l acc : PostMap),
    ((l.map Prod.fst).Nodup) → (∀ k ∈ l.map Prod.fst, acc.lookup k = none) →
    l.foldl (fun m q => pmAssign q.1 q.2 m) acc = acc ++ l := by
  intro l
  induction l with
  | nil =>
    intro acc _ _
    simp
  | cons q rest ih =>
    intro acc hnd hk
    rw [List.foldl_cons]
    have hq : acc.lookup q.1 = none := hk q.1 (by simp)
    have hassign : pmAssign q.1 q.2 acc = acc ++ [q] := by
      unfold pmAssign
      rw [hq]
      simp
    rw [hassign]
    rw [List.map_cons, List.nodup_cons] at hnd
    rw [ih (acc ++ [q]) hnd.2 ?_]
    · simp
    · intro k hk3
      have hkq : k ≠ q.1 := fun h => hnd.1 (h ▸ hk3)
      rw [alookup_append, hk k (by simp [hk3]), alookup_cons, if_neg hkq]
      simp [List.lookup]

/-- The new cache entry written on a miss is exactly the row list as
`(doc, positions)` pairs. -/
theorem missCacheEntry_eq (t : String) (inv : List PostRow)
    (hdb : inv.Pairwise (fun a b => a.term ≠ b.term ∨ a.doc ≠ b.doc)) :
    (rowsFor t inv).foldl (fun m r => pmAssign r.doc r.positions m) ([] : PostMap) =
      (rowsFor t inv).map (fun r => (r.doc, r.positions)) := by
  rw [foldl_pmAssign_rows]
  rw [foldl_pmAssign_append _ [] (rowsFor_docs_nodup t inv hdb)
    (fun k _ => by simp [List.lookup])]
  simp

/-- One scoring step adds exactly the weight of the token's effective
postings to every document's accumulated score. -/
theorem searchToken_getD (st : SearchState) (sc : List (Nat × Nat)) (t : String)
    (d : Nat) :
    (((searchToken st sc t).1).lookup d).getD 0 =
      (sc.lookup d).getD 0 + weightOf (postingsView st t) d := by
  unfold searchToken postingsView
  cases hc : st.invCache.lookup t with
  | some m =>
    simp only []
    exact innerFold_lookup_getD m sc d
  | none =>
    simp only []
    rw [foldl_bump_rows]
    exact innerFold_lookup_getD _ sc d

/-- One scoring step preserves key distinctness of the score dict. -/
theorem searchToken_nodup (st : SearchState) (sc : List (Nat × Nat)) (t : String)
    (h : (sc.map Prod.fst).Nodup) :
    (((searchToken st sc t).1).map Prod.fst).Nodup := by
  unfold searchToken
  cases hc : st.invCache.lookup t with
  | some m =>
    simp only []
    exact nodup_keys_innerFold m sc h
  | none =>
    simp only []
    rw [foldl_bump_rows]
    exact nodup_keys_innerFold _ sc h

/-- One scoring step never touches the persistent store. -/
theorem searchToken_db (st : SearchState) (sc : List (Nat × Nat)) (t : String) :
    (searchToken st sc t).2.db = st.db := by
  unfold searchToken
  cases hc : st.invCache.lookup t <;> rfl

/-- Populating the cache on a miss does not change any token's effective
postings (the installed entry equals what the table already said). -/
theorem searchToken_view (st : SearchState) (sc : List (Nat × Nat)) (t : String)
    (hdb : st.db.invIndex.Pairwise (fun a b => a.term ≠ b.term ∨ a.doc ≠ b.doc))
    (u : String) :
    postingsView (searchToken st sc t).2 u = postingsView st u := by
  unfold searchToken
  cases hc : st.invCache.lookup t with
  | some m => rfl
  | none =>
    simp only []
    unfold postingsView
    rw [alookup_append]
    by_cases hu : u = t
    · subst hu
      rw [hc, alookup_cons, if_pos rfl]
      simp only [Option.none_or]
      rw [missCacheEntry_eq u st.db.invIndex hdb]
    · rw [alookup_cons, if_neg hu]
      cases h2 : st.invCache.lookup u <;> simp [List.lookup]

/-- One scoring step keeps every cached map's keys duplicate-free and the
cache well-formed. -/
theorem searchToken_wf2 (st : SearchState) (sc : List (Nat × Nat)) (t : String)
    (hdb : st.db.invIndex.Pairwise (fun a b => a.term ≠ b.term ∨ a.doc ≠ b.doc))
    (hcache : ∀ p ∈ st.invCache, (p.2.map Prod.fst).Nodup) :
    ∀ p ∈ (searchToken st sc t).2.invCache, (p.2.map Prod.fst).Nodup := by
  unfold searchToken
  cases hc : st.invCache.lookup t with
  | some m =>
    simp only []
    exact hcache
  | none =>
    simp only []
    intro p hp
    rcases List.mem_append.mp hp with hp2 | hp2
    · exact hcache p hp2
    · simp only [List.mem_singleton] at hp2
      subst hp2
      simp only []
      rw [missCacheEntry_eq t st.db.invIndex hdb]
      exact rowsFor_docs_nodup t st.db.invIndex hdb

/-- The whole scoring loop: every accumulated entry equals its initial
value (0 when absent) plus the summed weights of the query tokens'
effective postings, read against the *initial* state — populating the
cache along the way changes no score. -/
theorem searchFold_values : ∀ (tokens : List String) (st : SearchState)
    (sc : List (Nat × Nat)),
    st.db.invIndex.Pairwise (fun a b => a.term ≠ b.term ∨ a.doc ≠ b.doc) →
    (∀ p ∈ st.invCache, (p.2.map Prod.fst).Nodup) →
    (sc.map Prod.fst).Nodup →
    ∀ p ∈ (tokens.foldl (fun acc t => searchToken acc.2 acc.1 t) (sc, st)).1,
      p.2 = (sc.lookup p.1).getD 0 +
        (tokens.map (fun t => weightOf (postingsView st t) p.1)).sum := by
  intro tokens
  induction tokens with
  | nil =>
    intro st sc hdb hcache hnd p hp
    simp only [List.foldl_nil] at hp
    simp only [List.map_nil, List.sum_nil, Nat.add_zero]
    rw [alookup_of_mem_nodup hnd hp]
    rfl
  | cons t rest ih =>
    intro st sc hdb hcache hnd p hp
    rw [List.foldl_cons] at hp
    have hdb2 : (searchToken st sc t).2.db.invIndex.Pairwise
        (fun a b => a.term ≠ b.term ∨ a.doc ≠ b.doc) := by
      rw [searchToken_db]
      exact hdb
    have hcache2 := searchToken_wf2 st sc t hdb hcache
    have hnd2 := searchToken_nodup st sc t hnd
    have hval := ih (searchToken st sc t).2 (searchToken st sc t).1 hdb2 hcache2 hnd2 p hp
    rw [hval, searchToken_getD]
    have hv : ∀ u, postingsView (searchToken st sc t).2 u = postingsView st u :=
      searchToken_view st sc t hdb
    simp only [hv, List.map_cons, List.sum_cons]
    rw [Nat.add_assoc]

/-- C6.  Under the table's `(term, doc)` primary key and duplicate-free
cached maps, `search` assigns every candidate document a score equal to
the sum, over the query tokens, of the length of that token's position
list for the document, and the scored document list is sorted by score in
descending order (so a document matching a term twice is ranked strictly
above one matching it once). -/
theorem search_scoring (st : SearchState) (query : String)
    (hdb : st.db.invIndex.Pairwise (fun a b => a.term ≠ b.term ∨ a.doc ≠ b.doc))
    (hcache : ∀ p ∈ st.invCache, (p.2.map Prod.fst).Nodup) :
    (∀ p ∈ (searchScored st query).1, p.2 = scoreOf st (tokenize query) p.1) ∧
    (searchScored st query).1.Sorted (fun a b => b.2 ≤ a.2) := by
  constructor
  · intro p hp
    simp only [searchScored] at hp
    have hp2 : p ∈ (searchFold st (tokenize query)).1 :=
      (List.mergeSort_perm ((searchFold st (tokenize query)).1)
        (fun a b => decide (b.2 ≤ a.2))).mem_iff.mp hp
    have hval := searchFold_values (tokenize query) st [] hdb hcache (by simp) p hp2
    simp only [List.lookup, Option.getD_none, Nat.zero_add] at hval
    rw [hval]
    have hview_nd : ∀ t, ((postingsView st t).map Prod.fst).Nodup := by
      intro t
      unfold postingsView
      cases hc : st.invCache.lookup t with
      | some m => exact hcache (t, m) (mem_of_alookup hc)
      | none => exact rowsFor_docs_nodup t st.db.invIndex hdb
    unfold scoreOf
    exact congrArg List.sum
      (List.map_congr_left (fun t _ => weightOf_eq_lookup _ _ (hview_nd t)))
  · simp only [searchScored]
    have h := @List.sorted_mergeSort (Nat × Nat)
      (fun a b => decide (b.2 ≤ a.2))
      (by intro a b c h1 h2; simp at h1 h2 ⊢; omega)
      (by intro a b; simp; omega)
      ((searchFold st (tokenize query)).1)
    exact h.imp (by intro a b hab; simpa using hab)

/-- C6 (witness): on the two-document state (doc 1 has `"cats"` twice,
doc 2 once), the scored list is `[(1, 2), (2, 1)]`: scores are the
position-list lengths and doc 1 is ranked strictly above doc 2. -/
theorem search_scoring_witness :
    (c6State.db.invIndex.Pairwise (fun a b => a.term ≠ b.term ∨ a.doc ≠ b.doc) ∧
      (∀ p ∈ c6State.invCache, (p.2.map Prod.fst).Nodup)) ∧
    ((∀ p ∈ (searchScored c6State "cats").1,
        p.2 = scoreOf c6State (tokenize "cats") p.1) ∧
      (searchScored c6State "cats").1.Sorted (fun a b => b.2 ≤ a.2)) ∧
    (searchFold c6State (tokenize "cats")).1 = [(1, 2), (2, 1)] :=
  ⟨⟨by decide, by decide⟩,
   search_scoring c6State "cats" (by decide) (by decide),
   by decide⟩

end SearchUtil
